import Mathlib

/-!
# Verification of the cppbuild template engine, variable resolver and build orchestrator

Shallow embedding of the core of the `cppbuild` build driver (TypeScript sources under
`src/`): the text escape utilities, the variable-list grammar, path formatting, the
recursive bracket matcher, the template expansion engine, the variable resolver, the
incremental-skip decision of the build-step executor, the once-mode result handling of
the build driver, and the C/C++ include-dependency analyser.

JavaScript strings are modelled as `List Char`; JavaScript's `string | string[]` values
as a two-arm sum `Value`; exceptions as `Except`; the mutable per-call-site cache of the
resolver as explicit state threading; and the (potentially non-terminating) mutual
recursion between the resolver and the template engine with an explicit fuel parameter,
where running out of fuel is a distinguished outcome `Err.outOfFuel` distinct from every
error the program itself raises.
-/

namespace Cppbuild

/-- JS strings are modelled as lists of characters. -/
abbrev Str := List Char

/-- Characters of the reserved template-metacharacter set of `escapeTemplateText`
(`src/utils.ts`): `[ ] ( ) $ { } , \`. -/
def isReserved (c : Char) : Bool :=
  c = '[' || c = ']' || c = '(' || c = ')' || c = '$' || c = '{' || c = '}' || c = ',' || c = '\\'

/-- `escapeTemplateText` (src/utils.ts): `text.replace(/[\[\]\(\)\$\{\}\,\\]/g, m => '\\' + m)` —
prefix every character of the reserved set with a backslash. -/
def escapeTemplateText : Str → Str
  | [] => []
  | c :: rest => if isReserved c then '\\' :: c :: escapeTemplateText rest
                 else c :: escapeTemplateText rest

/-- JS line terminators: the characters that `.` in a regular expression without the `s`
flag does not match. -/
def isLineTerm (c : Char) : Bool :=
  c = '\n' || c = '\r' || c = '\u2028' || c = '\u2029'

/-- `unescapeTemplateText` (src/utils.ts): `text.replace(/(?:\\(.))/g, '$1')` — the regex
engine scans left to right, replacing every backslash-character pair by the bare character;
`.` does not match a line terminator, in which case no match starts at the backslash and
scanning resumes at the following character. -/
def unescapeTemplateText : Str → Str
  | [] => []
  | c :: rest =>
    if c = '\\' then
      match rest with
      | [] => ['\\']
      | c2 :: rest2 =>
        if isLineTerm c2 then '\\' :: c2 :: unescapeTemplateText rest2
        else c2 :: unescapeTemplateText rest2
    else c :: unescapeTemplateText rest

theorem isLineTerm_of_isReserved {c : Char} (h : isReserved c = true) : isLineTerm c = false := by
  simp only [isReserved, Bool.or_eq_true, decide_eq_true_eq] at h
  rcases h with ((((((((h | h) | h) | h) | h) | h) | h) | h) | h) <;> subst h <;> decide

/-- A character of an intended input that escaping leaves alone is not a backslash. -/
theorem not_backslash_of_not_reserved {c : Char} (h : isReserved c = false) : c ≠ '\\' := by
  intro hc
  subst hc
  simp [isReserved] at h

/-- Escaping leaves a string without reserved characters unchanged. -/
theorem escape_id_of_no_reserved :
    ∀ s : Str, (∀ c ∈ s, isReserved c = false) → escapeTemplateText s = s := by
  intro s h
  induction s with
  | nil => rfl
  | cons c rest ih =>
    have hc := h c (by simp)
    simp [escapeTemplateText, hc, ih fun d hd => h d (by simp [hd])]

/-- Unescaping leaves a string without backslashes unchanged. -/
theorem unescape_id_of_no_backslash :
    ∀ s : Str, (∀ c ∈ s, c ≠ '\\') → unescapeTemplateText s = s := by
  intro s h
  induction s with
  | nil => rfl
  | cons c rest ih =>
    have hc := h c (by simp)
    rw [unescapeTemplateText.eq_def]
    simp [hc, ih fun d hd => h d (by simp [hd])]

/-- C6: escaping followed by unescaping is the identity — for every string `s`, so in
particular for every string containing only printable characters,
`unescapeTemplateText (escapeTemplateText s) = s` (src/utils.ts `escapeTemplateText`,
`unescapeTemplateText`). -/
theorem escape_unescape_roundtrip (s : Str) :
    unescapeTemplateText (escapeTemplateText s) = s := by
  induction s with
  | nil => rfl
  | cons c rest ih =>
    by_cases h : isReserved c = true
    · rw [escapeTemplateText, if_pos h, unescapeTemplateText.eq_def]
      simp [isLineTerm_of_isReserved h, ih]
    · have h' : isReserved c = false := by simpa using h
      rw [escapeTemplateText, if_neg h, unescapeTemplateText.eq_def]
      simp [not_backslash_of_not_reserved h', ih]

/-- C9 counterexample: neither `escapeTemplateText` nor `unescapeTemplateText` is
idempotent on its intended inputs.  `escape (escape "$") = "\\\$" ≠ "\$" = escape "$"`,
and on the escaped text `"\\\$" = escape "\$"` a second unescape differs from the first:
`unescape "\\\$" = "\$"` but `unescape "\$" = "$"`. -/
theorem escape_unescape_idempotent_counterexample :
    escapeTemplateText (escapeTemplateText ['$']) ≠ escapeTemplateText ['$'] ∧
    unescapeTemplateText (unescapeTemplateText ['\\', '\\', '\\', '$']) ≠
      unescapeTemplateText ['\\', '\\', '\\', '$'] := by
  constructor <;> decide

/-- C9 (amended): both functions are total, and idempotence holds exactly on their fixed
points: `escapeTemplateText` is idempotent on strings without reserved characters (where
it is the identity), and `unescapeTemplateText` is idempotent on strings without
backslashes (where it is the identity). -/
theorem escape_unescape_idempotent_restricted :
    (∀ s : Str, (∀ c ∈ s, isReserved c = false) →
      escapeTemplateText (escapeTemplateText s) = escapeTemplateText s) ∧
    (∀ s : Str, (∀ c ∈ s, c ≠ '\\') →
      unescapeTemplateText (unescapeTemplateText s) = unescapeTemplateText s) := by
  constructor
  · intro s h
    rw [escape_id_of_no_reserved s h, escape_id_of_no_reserved s h]
  · intro s h
    rw [unescape_id_of_no_backslash s h, unescape_id_of_no_backslash s h]

/-- Witness for `escape_unescape_idempotent_restricted` at the concrete inputs
`"ab"` and `"x"`. -/
theorem escape_unescape_idempotent_restricted_witness :
    escapeTemplateText (escapeTemplateText ['a', 'b']) = escapeTemplateText ['a', 'b'] ∧
    unescapeTemplateText (unescapeTemplateText ['x']) = unescapeTemplateText ['x'] :=
  ⟨escape_unescape_idempotent_restricted.1 ['a', 'b'] (by decide),
   escape_unescape_idempotent_restricted.2 ['x'] (by decide)⟩

/-! ## The variable-list grammar (src/processor.ts `variableListJoin` / `variableListParse`) -/

/-- The whitespace class `\s` of a JS regular expression (the members relevant to this
code base; the full class also contains further rare Unicode space characters). -/
def isJsWs (c : Char) : Bool :=
  c = ' ' || c = '\t' || c = '\n' || c = '\r' || c = '\x0b' || c = '\x0c' ||
  c = '\u00a0' || c = '\u2028' || c = '\u2029' || c = '\ufeff'

/-- `value.replace(/\'/g, '\\\'')`: prefix every single quote with a backslash. -/
def escQuotes : Str → Str
  | [] => []
  | c :: rest => if c = '\'' then '\\' :: '\'' :: escQuotes rest else c :: escQuotes rest

/-- The per-value serialisation step of `variableListJoin`: single quotes are
backslash-escaped when the value contains a quote or a backslash, and the value is
always wrapped in single quotes. -/
def variableListJoinVal (v : Str) : Str :=
  let v' := if v.contains '\'' || v.contains '\\' then escQuotes v else v
  '\'' :: v' ++ ['\'']

/-- `variableListJoin` (src/processor.ts): serialise every value and join with `,`. -/
def variableListJoin : List Str → Str
  | [] => []
  | [v] => variableListJoinVal v
  | v :: rest => variableListJoinVal v ++ ',' :: variableListJoin rest

/-- Skip a (possibly empty) run of whitespace: the regex fragment `\s*`. -/
def skipWs : Str → Str
  | [] => []
  | c :: rest => if isJsWs c then skipWs rest else c :: rest

/-- Interior of a single-quoted token: the regex fragment
`[^'\\]*(?:\\[\S\s][^'\\]*)*`.  Ordinary characters and backslash-escaped pairs are
consumed until an unescaped quote; a trailing lone backslash admits no parse. -/
def scanQuotedBody : Str → Option (Str × Str)
  | [] => some ([], [])
  | c :: rest =>
    if c = '\'' then some ([], '\'' :: rest)
    else if c = '\\' then
      match rest with
      | [] => none
      | c2 :: rest2 =>
        match scanQuotedBody rest2 with
        | some (b, r) => some ('\\' :: c2 :: b, r)
        | none => none
    else
      match scanQuotedBody rest with
      | some (b, r) => some (c :: b, r)
      | none => none

/-- A full single-quoted token `'...'`; returns the interior and the remainder after the
closing quote. -/
def scanQuoted : Str → Option (Str × Str)
  | [] => none
  | c :: rest =>
    if c = '\'' then
      match scanQuotedBody rest with
      | some (b, r) =>
        match r with
        | '\'' :: r2 => some (b, r2)
        | _ => none
      | none => none
    else none

/-- A character admissible in a bare (unquoted) token: the class `[^,'\s\\]`. -/
def isBareChar (c : Char) : Bool :=
  !(c = ',' || c = '\'' || c = '\\' || isJsWs c)

/-- The iterated tail of a bare token: the regex fragment `(?:\s+[^,'\s\\]+)*`,
consumed greedily — a whitespace run is absorbed only when at least one further bare
character follows it. -/
def scanBareTailF : Nat → Str → Str × Str
  | 0, s => ([], s)
  | fuel + 1, s =>
    let w := s.takeWhile isJsWs
    let r1 := s.dropWhile isJsWs
    if w.isEmpty then ([], s)
    else
      let b := r1.takeWhile isBareChar
      let r2 := r1.dropWhile isBareChar
      if b.isEmpty then ([], s)
      else
        let (t, r) := scanBareTailF fuel r2
        (w ++ b ++ t, r)

/-- A bare token: the regex fragment `[^,'\s\\]*(?:\s+[^,'\s\\]+)*` (may be empty). -/
def scanBare (s : Str) : Str × Str :=
  let a := s.takeWhile isBareChar
  let r := s.dropWhile isBareChar
  let (t, r') := scanBareTailF r.length r
  (a ++ t, r')

/-- One list item for validation: a quoted token when one parses, otherwise a bare token
(at a position holding an unparsable quote the bare alternative matches the empty string,
which then fails at the following delimiter check, exactly as the regex alternation
backtracks).  Returns the remainder after the item. -/
def scanItemV (s : Str) : Str :=
  if s.head? = some '\'' then
    match scanQuoted s with
    | some (_, r) => r
    | none => s
  else (scanBare s).2

/-- The repetition `(?:,\s*(?:item)\s*)*$` of the validating regex `variableList`
(src/processor.ts): after the first item, every further item is introduced by a comma and
the whole string must be consumed. -/
def validTail : Nat → Str → Bool
  | _, [] => true
  | 0, _ :: _ => false
  | fuel + 1, c :: rest =>
    if c = ',' then validTail fuel (skipWs (scanItemV (skipWs rest)))
    else false

/-- The validating regular expression `variableList` of src/processor.ts:
`^\s*(?:Q|B)\s*(?:,\s*(?:Q|B)\s*)*$` with `Q` a quoted and `B` a bare token. -/
def variableListValid (s : Str) : Bool :=
  validTail (skipWs (scanItemV (skipWs s))).length (skipWs (scanItemV (skipWs s)))

/-- De-escape `\'` pairs: `value.replace(/\\'/g, '\'')`. -/
def deEscapeQuotes : Str → Str
  | [] => []
  | c :: rest =>
    if c = '\\' then
      match rest with
      | '\'' :: rest2 => '\'' :: deEscapeQuotes rest2
      | r => c :: deEscapeQuotes r
    else c :: deEscapeQuotes rest

/-- The per-match post-processing of `variableListParse`: strip the enclosing single
quotes when present and de-escape `\'` (the trims of the source act on the whitespace
and the trailing comma, which the scanner below already separates from the token). -/
def processListValue (v : Str) : Str :=
  let v := if v.head? = some '\'' ∧ v.getLast? = some '\'' then (v.drop 1).dropLast else v
  deEscapeQuotes v

/-- One token of a `listValues` match: a quoted token when one parses at this position,
otherwise a bare token; returns the raw token text (quotes included) and the remainder. -/
def scanListToken (r1 : Str) : Str × Str :=
  if r1.head? = some '\'' then
    match scanQuoted r1 with
    | some (b, r) => ('\'' :: b ++ ['\''], r)
    | none => scanBare r1
  else scanBare r1

/-- The global matching loop of the regex `listValues` of src/processor.ts:
`(?!\s*$)\s*(?:'(…)'|(…))\s*(?:,|$)` applied repeatedly; returns the raw matched tokens
(quotes included).  `none` models a position at which no match is possible (unreachable
after successful validation). -/
def listValuesScan : Nat → Str → Option (List Str)
  | 0, _ => none
  | fuel + 1, s =>
    if skipWs s = [] then some []
    else
      match skipWs (scanListToken (skipWs s)).2 with
      | ',' :: r4 =>
        match listValuesScan fuel r4 with
        | some toks => some ((scanListToken (skipWs s)).1 :: toks)
        | none => none
      | [] => some [(scanListToken (skipWs s)).1]
      | _ :: _ => none

/-- `variableListParse` (src/processor.ts): validate against `variableList` (a failure is
the thrown `Variable list is malformed` error, modelled as `none`), then extract and
post-process every `listValues` match. -/
def variableListParse (s : Str) : Option (List Str) :=
  if variableListValid s = false then none
  else (listValuesScan (s.length + 1) s).map (·.map processListValue)

theorem escQuotes_eq_self_of_no_quote {v : Str} (h : '\'' ∉ v) : escQuotes v = v := by
  induction v with
  | nil => rfl
  | cons c rest ih =>
    have hc : c ≠ '\'' := fun hc => h (hc ▸ List.mem_cons_self c rest)
    simp only [escQuotes, if_neg hc]
    rw [ih fun hm => h (List.mem_cons_of_mem c hm)]

theorem variableListJoinVal_eq {v : Str} (h : '\\' ∉ v) :
    variableListJoinVal v = '\'' :: escQuotes v ++ ['\''] := by
  unfold variableListJoinVal
  by_cases hq : '\'' ∈ v
  · have hc : (v.contains '\'' || v.contains '\\') = true := by simp [hq]
    rw [hc]
    simp
  · have hc : (v.contains '\'' || v.contains '\\') = false := by simp [hq, h]
    rw [hc]
    simp [escQuotes_eq_self_of_no_quote hq]

theorem scanQuotedBody_escQuotes {v : Str} (h : '\\' ∉ v) (r : Str) :
    scanQuotedBody (escQuotes v ++ '\'' :: r) = some (escQuotes v, '\'' :: r) := by
  induction v with
  | nil =>
    simp only [escQuotes, List.nil_append]
    rw [scanQuotedBody.eq_def]
    simp
  | cons c rest ih =>
    have hb : c ≠ '\\' := fun hc => h (hc ▸ List.mem_cons_self c rest)
    have ih' := ih fun hm => h (List.mem_cons_of_mem c hm)
    by_cases hq : c = '\''
    · subst hq
      simp only [escQuotes, if_pos rfl, List.cons_append]
      rw [scanQuotedBody.eq_def]
      simp [ih']
    · simp only [escQuotes, if_neg hq, List.cons_append]
      rw [scanQuotedBody.eq_def]
      simp [hq, hb, ih']

theorem scanQuoted_joinVal {v : Str} (h : '\\' ∉ v) (r : Str) :
    scanQuoted (variableListJoinVal v ++ r) = some (escQuotes v, r) := by
  rw [variableListJoinVal_eq h]
  rw [show ('\'' :: escQuotes v ++ ['\'']) ++ r = '\'' :: (escQuotes v ++ '\'' :: r) from by
    simp]
  rw [scanQuoted.eq_def]
  simp [scanQuotedBody_escQuotes h r]

theorem deEscapeQuotes_escQuotes {v : Str} (h : '\\' ∉ v) :
    deEscapeQuotes (escQuotes v) = v := by
  induction v with
  | nil => rfl
  | cons c rest ih =>
    have hb : c ≠ '\\' := fun hc => h (hc ▸ List.mem_cons_self c rest)
    have ih' := ih fun hm => h (List.mem_cons_of_mem c hm)
    by_cases hq : c = '\''
    · subst hq
      simp only [escQuotes, if_pos rfl]
      rw [deEscapeQuotes.eq_def]
      simp [ih']
    · simp only [escQuotes, if_neg hq]
      rw [deEscapeQuotes.eq_def]
      simp [hb, ih']

theorem processListValue_token {v : Str} (h : '\\' ∉ v) :
    processListValue ('\'' :: escQuotes v ++ ['\'']) = v := by
  have h1 : ('\'' :: escQuotes v ++ ['\'']).head? = some '\'' := by simp
  have h2 : ('\'' :: escQuotes v ++ ['\'']).getLast? = some '\'' := by
    rw [show ('\'' :: escQuotes v ++ ['\'']) = ('\'' :: escQuotes v) ++ ['\''] from by simp]
    exact List.getLast?_concat _
  unfold processListValue
  rw [if_pos ⟨h1, h2⟩]
  rw [show List.drop 1 ('\'' :: escQuotes v ++ ['\'']) = escQuotes v ++ ['\''] from by simp]
  rw [show (escQuotes v ++ ['\'']).dropLast = escQuotes v from by simp]
  exact deEscapeQuotes_escQuotes h

theorem skipWs_joinVal {v : Str} (hv : '\\' ∉ v) (r : Str) :
    skipWs (variableListJoinVal v ++ r) = variableListJoinVal v ++ r := by
  rw [variableListJoinVal_eq hv]
  rw [show ('\'' :: escQuotes v ++ ['\'']) ++ r = '\'' :: (escQuotes v ++ '\'' :: r) from by
    simp]
  rw [skipWs]
  simp [isJsWs]

theorem scanItemV_joinVal {v : Str} (hv : '\\' ∉ v) (r : Str) :
    scanItemV (variableListJoinVal v ++ r) = r := by
  have hh : (variableListJoinVal v ++ r).head? = some '\'' := by
    rw [variableListJoinVal_eq hv]
    simp
  unfold scanItemV
  rw [if_pos hh, scanQuoted_joinVal hv r]

theorem scanListToken_joinVal {v : Str} (hv : '\\' ∉ v) (r : Str) :
    scanListToken (variableListJoinVal v ++ r) = ('\'' :: escQuotes v ++ ['\''], r) := by
  have hh : (variableListJoinVal v ++ r).head? = some '\'' := by
    rw [variableListJoinVal_eq hv]
    simp
  unfold scanListToken
  rw [if_pos hh, scanQuoted_joinVal hv r]

theorem variableListJoinVal_length {v : Str} (hv : '\\' ∉ v) :
    (variableListJoinVal v).length = (escQuotes v).length + 2 := by
  rw [variableListJoinVal_eq hv]
  simp

theorem validTail_join (l : List Str) (h : ∀ v ∈ l, '\\' ∉ v) :
    ∀ fuel, (variableListJoin l).length < fuel →
      validTail fuel (',' :: variableListJoin l) = true := by
  induction l with
  | nil =>
    intro fuel hf
    cases fuel with
    | zero => omega
    | succ f =>
      simp [variableListJoin, validTail, skipWs, scanItemV, scanBare, scanBareTailF]
  | cons v rest ih =>
    intro fuel hf
    cases fuel with
    | zero => omega
    | succ f =>
      have hv : '\\' ∉ v := h v (by simp)
      have hrest : ∀ w ∈ rest, '\\' ∉ w := fun w hw => h w (by simp [hw])
      rw [validTail, if_pos rfl]
      cases rest with
      | nil =>
        rw [show variableListJoin [v] = variableListJoinVal v ++ [] from by
          simp [variableListJoin]]
        rw [skipWs_joinVal hv, scanItemV_joinVal hv]
        simp [skipWs, validTail]
      | cons w rest' =>
        rw [show variableListJoin (v :: w :: rest') =
            variableListJoinVal v ++ ',' :: variableListJoin (w :: rest') from by
          simp [variableListJoin]]
        rw [skipWs_joinVal hv, scanItemV_joinVal hv]
        rw [show skipWs (',' :: variableListJoin (w :: rest')) =
            ',' :: variableListJoin (w :: rest') from by rw [skipWs]; simp [isJsWs]]
        apply ih hrest
        rw [show variableListJoin (v :: w :: rest') =
            variableListJoinVal v ++ ',' :: variableListJoin (w :: rest') from by
          simp [variableListJoin]] at hf
        rw [List.length_append, variableListJoinVal_length hv] at hf
        simp at hf
        omega

theorem variableListValid_join (l : List Str) (h : ∀ v ∈ l, '\\' ∉ v) :
    variableListValid (variableListJoin l) = true := by
  cases l with
  | nil =>
    simp [variableListJoin, variableListValid, skipWs, scanItemV, scanBare, scanBareTailF,
      validTail]
  | cons v rest =>
    have hv : '\\' ∉ v := h v (by simp)
    have hrest : ∀ w ∈ rest, '\\' ∉ w := fun w hw => h w (by simp [hw])
    unfold variableListValid
    cases rest with
    | nil =>
      rw [show variableListJoin [v] = variableListJoinVal v ++ [] from by
        simp [variableListJoin]]
      rw [skipWs_joinVal hv, scanItemV_joinVal hv]
      simp [skipWs, validTail]
    | cons w rest' =>
      rw [show variableListJoin (v :: w :: rest') =
          variableListJoinVal v ++ ',' :: variableListJoin (w :: rest') from by
        simp [variableListJoin]]
      rw [skipWs_joinVal hv, scanItemV_joinVal hv]
      rw [show skipWs (',' :: variableListJoin (w :: rest')) =
          ',' :: variableListJoin (w :: rest') from by rw [skipWs]; simp [isJsWs]]
      exact validTail_join (w :: rest') hrest _ (by simp)

theorem variableListJoin_cons_ne {v : Str} (hv : '\\' ∉ v) (rest : List Str) :
    variableListJoin (v :: rest) ≠ [] := by
  cases rest with
  | nil =>
    rw [show variableListJoin [v] = variableListJoinVal v from rfl, variableListJoinVal_eq hv]
    simp
  | cons w rest' =>
    rw [show variableListJoin (v :: w :: rest') =
        variableListJoinVal v ++ ',' :: variableListJoin (w :: rest') from by
      simp [variableListJoin]]
    rw [variableListJoinVal_eq hv]
    simp

theorem listValuesScan_join (l : List Str) (h : ∀ v ∈ l, '\\' ∉ v) :
    ∀ fuel, (variableListJoin l).length < fuel →
      listValuesScan fuel (variableListJoin l) =
        some (l.map fun v => '\'' :: escQuotes v ++ ['\'']) := by
  induction l with
  | nil =>
    intro fuel hf
    cases fuel with
    | zero => omega
    | succ f => simp [variableListJoin, listValuesScan, skipWs]
  | cons v rest ih =>
    intro fuel hf
    cases fuel with
    | zero => omega
    | succ f =>
      have hv : '\\' ∉ v := h v (by simp)
      have hrest : ∀ w ∈ rest, '\\' ∉ w := fun w hw => h w (by simp [hw])
      rw [listValuesScan]
      cases rest with
      | nil =>
        rw [show variableListJoin [v] = variableListJoinVal v ++ [] from by
          simp [variableListJoin]]
        rw [skipWs_joinVal hv]
        rw [if_neg (by
          rw [show variableListJoinVal v ++ [] = variableListJoin [v] from by
            simp [variableListJoin]]
          exact variableListJoin_cons_ne hv [])]
        rw [scanListToken_joinVal hv]
        simp [skipWs]
      | cons w rest' =>
        rw [show variableListJoin (v :: w :: rest') =
            variableListJoinVal v ++ ',' :: variableListJoin (w :: rest') from by
          simp [variableListJoin]]
        rw [skipWs_joinVal hv]
        rw [if_neg (by
          rw [show variableListJoinVal v ++ ',' :: variableListJoin (w :: rest') =
              variableListJoin (v :: w :: rest') from by simp [variableListJoin]]
          exact variableListJoin_cons_ne hv _)]
        rw [scanListToken_joinVal hv]
        rw [show skipWs (',' :: variableListJoin (w :: rest')) =
            ',' :: variableListJoin (w :: rest') from by rw [skipWs]; simp [isJsWs]]
        have hlen : (variableListJoin (w :: rest')).length < f := by
          rw [show variableListJoin (v :: w :: rest') =
              variableListJoinVal v ++ ',' :: variableListJoin (w :: rest') from by
            simp [variableListJoin]] at hf
          rw [List.length_append] at hf
          rw [variableListJoinVal_length hv] at hf
          simp at hf
          omega
        simp [ih hrest f hlen]

/-- C5 counterexample: the list round-trip fails on values containing a backslash.
For `xs = ["\"]`, `variableListJoin xs = "'\'"`, which the validating regex
`variableList` rejects (the backslash swallows the closing quote), so
`variableListParse` throws its `Variable list is malformed` error instead of
returning `xs`. -/
theorem variableList_roundtrip_counterexample :
    variableListParse (variableListJoin [['\\']]) = none ∧
    variableListParse (variableListJoin [['\\']]) ≠ some [['\\']] := by
  constructor <;> decide

/-- C5 (amended): for every sequence `xs` of non-empty strings *containing no
backslash*, `variableListParse (variableListJoin xs) = xs`; `variableListJoin` always
single-quotes each value, and both functions are total (`variableListParse` reports
malformed input as an error value rather than diverging).  The backslash restriction is
forced by the counterexample: serialisation escapes only single quotes, so backslashes
break the quoted-token grammar. -/
theorem variableList_roundtrip (l : List Str)
    (h : ∀ v ∈ l, v ≠ [] ∧ '\\' ∉ v) :
    variableListParse (variableListJoin l) = some l := by
  unfold variableListParse
  rw [variableListValid_join l fun v hv => (h v hv).2]
  simp only [Bool.true_eq_false, if_false]
  rw [listValuesScan_join l (fun v hv => (h v hv).2) _ (by omega)]
  simp only [Option.map_some', List.map_map]
  congr 1
  have : ∀ v ∈ l, (processListValue ∘ fun v => '\'' :: escQuotes v ++ ['\'']) v = id v := by
    intro v hv
    exact processListValue_token (h v hv).2
  rw [List.map_congr_left this, List.map_id]

/-- Witness for `variableList_roundtrip` at the concrete list `["a b", "c'"]`. -/
theorem variableList_roundtrip_witness :
    variableListParse (variableListJoin [['a', ' ', 'b'], ['c', '\'']]) =
      some [['a', ' ', 'b'], ['c', '\'']] :=
  variableList_roundtrip [['a', ' ', 'b'], ['c', '\'']] (by decide)

/-! ## Path formatting (src/processor.ts `formatPath`, src/utils.ts `normalizePath`) -/

/-- `String.prototype.trim`: strip leading and trailing JS whitespace. -/
def jsTrim (s : Str) : Str :=
  ((s.dropWhile isJsWs).reverse.dropWhile isJsWs).reverse

/-- Split a path on `/` separators. -/
def splitOnSlash : Str → List Str
  | [] => [[]]
  | c :: rest =>
    match splitOnSlash rest with
    | [] => [[c]]
    | seg :: segs => if c = '/' then [] :: seg :: segs else (c :: seg) :: segs

/-- The segment resolution of Node's `path.normalize` (`normalizeString`): empty and `.`
segments are dropped; `..` pops the previous segment, except above the start of a
relative path where it is preserved (`allowAboveRoot`) or, for an absolute path, dropped. -/
def resolveSegs (allowAboveRoot : Bool) : List Str → List Str → List Str
  | acc, [] => acc.reverse
  | acc, seg :: rest =>
    if seg = [] ∨ seg = ['.'] then resolveSegs allowAboveRoot acc rest
    else if seg = ['.', '.'] then
      match acc with
      | top :: acc2 =>
        if top = ['.', '.'] then resolveSegs allowAboveRoot (seg :: top :: acc2) rest
        else resolveSegs allowAboveRoot acc2 rest
      | [] =>
        if allowAboveRoot then resolveSegs allowAboveRoot [seg] rest
        else resolveSegs allowAboveRoot [] rest
    else resolveSegs allowAboveRoot (seg :: acc) rest

/-- Join path segments with `/`. -/
def joinSegs : List Str → Str
  | [] => []
  | [s] => s
  | s :: rest => s ++ '/' :: joinSegs rest

/-- Node's `path.posix.normalize`: resolve `.` and `..` segments, collapse repeated
separators, preserve a trailing separator, and map the empty result back to `.` / `/`. -/
def posixNormalize (p : Str) : Str :=
  if p = [] then ['.']
  else
    let isAbs := p.head? = some '/'
    let trailingSep := p.getLast? = some '/'
    let body := joinSegs (resolveSegs (!isAbs) [] (splitOnSlash p))
    if body = [] then
      if isAbs then ['/']
      else if trailingSep then ['.', '/'] else ['.']
    else
      let body2 := if trailingSep then body ++ ['/'] else body
      if isAbs then '/' :: body2 else body2

/-- `normalizePath` (src/utils.ts): `path.normalize(p).replace(/\\/g, '/')` — normalise
and always use `/` as the path separator.  `path.normalize` is modelled by its POSIX
algorithm; the global replacement then turns every backslash into a forward slash. -/
def normalizePath (p : Str) : Str :=
  (posixNormalize p).map fun c => if c = '\\' then '/' else c

/-- `formatPath` (src/processor.ts): format an *escaped* string as a path — trim,
unescape, normalise, then add quotes as needed: a path containing a space keeps existing
double quotes; existing single quotes are kept on a non-Windows host and converted to
double quotes on Windows (`win` models `process.platform === 'win32'`); otherwise double
quotes are added.  The result is re-escaped. -/
def formatPath (win : Bool) (pathString : Str) : Str :=
  let p1 := jsTrim pathString
  let p2 := unescapeTemplateText p1
  let p3 := normalizePath p2
  let p4 :=
    if p3.contains ' ' then
      if p3.head? = some '"' ∧ p3.getLast? = some '"' then p3
      else if p3.head? = some '\'' ∧ p3.getLast? = some '\'' then
        if win = false then p3
        else '"' :: ((p3.drop 1).dropLast) ++ ['"']
      else '"' :: p3 ++ ['"']
    else p3
  escapeTemplateText p4

/-- The quoting discipline of `formatPath` exactly as the specification words it: a path
containing a space that is not already double-quoted and not single-quoted is wrapped in
double quotes; a single-quoted path is left unchanged on a non-Windows host and re-quoted
with double quotes on Windows; a path without a space is never quoted.  Stated over the
already trimmed, unescaped and normalised path. -/
def formatPathQuoteSpec (win : Bool) (p : Str) : Str :=
  if ¬ p.contains ' ' then p
  else if p.head? = some '"' ∧ p.getLast? = some '"' then p
  else if p.head? = some '\'' ∧ p.getLast? = some '\'' then
    if win then '"' :: ((p.drop 1).dropLast) ++ ['"'] else p
  else '"' :: p ++ ['"']

/-- C8: `formatPath` trims whitespace, unescapes, normalises path separators to `/`, then
applies exactly the quoting discipline of the specification (double-quote a spaced path
unless already quoted; keep single quotes on non-Windows, convert them on Windows; never
quote a space-free path), and re-escapes before returning. -/
theorem formatPath_spec (win : Bool) (s : Str) :
    formatPath win s =
      escapeTemplateText
        (formatPathQuoteSpec win (normalizePath (unescapeTemplateText (jsTrim s)))) := by
  unfold formatPath formatPathQuoteSpec
  dsimp only
  generalize normalizePath (unescapeTemplateText (jsTrim s)) = p
  by_cases h1 : ' ' ∈ p
  · by_cases h2 : p.head? = some '"' ∧ p.getLast? = some '"'
    · simp [h1, h2]
    · by_cases h3 : p.head? = some '\'' ∧ p.getLast? = some '\''
      · cases win <;> simp [h1, h2, h3]
      · simp [h1, h2, h3]
  · simp [h1]

/-! ## The recursive bracket matcher (src/utils.ts `matchRecursive` / `replaceRecursive`) -/

/-- The delimiter pairs the engine passes to the matcher: `\(`/`\)`, `\[`/`\]`, and
`\$\$?{`/`}` (the last matches both `${` and `$${`). -/
inductive DelimKind
  | paren
  | bracket
  | dollarBrace
deriving DecidableEq, Repr

/-- The left-delimiter lexeme matched at the head of `s`, with its length.  For
`\$\$?{` the greedy optional `\$?` prefers the longer lexeme `$${`. -/
def matchLeft (k : DelimKind) (s : Str) : Option (Str × Nat) :=
  match k with
  | .paren => if s.head? = some '(' then some (['('], 1) else none
  | .bracket => if s.head? = some '[' then some (['['], 1) else none
  | .dollarBrace =>
    match s with
    | '$' :: '$' :: '{' :: _ => some (['$', '$', '{'], 3)
    | '$' :: '{' :: _ => some (['$', '{'], 2)
    | _ => none

/-- The (single-character) right delimiter of each pair. -/
def matchRightChar : DelimKind → Char
  | .paren => ')'
  | .bracket => ']'
  | .dollarBrace => '}'

/-- One reported match of `xregexp.matchRecursive`, as repackaged by `matchRecursive`
(src/utils.ts): `{index, outerText, innerText, left, right}`. -/
structure XMatch where
  index : Nat
  outerText : Str
  innerText : Str
  left : Str
  right : Str
deriving DecidableEq, Repr

/-- The errors raised by the embedded engine.  `outOfFuel` is the distinguished outcome
of exhausting the fuel of the shallow embedding; the remaining constructors correspond
to the `throw new Error(...)` sites of the source. -/
inductive Err
  | outOfFuel
  | unbalanced (text : Str)
  | unresolvedVariable (name : Str)
  | undefinedVariable (name : Str)
  | subtemplateArity (template : Str)
  | malformedList (text : Str)
  | multipleValues (text : Str)
deriving DecidableEq, Repr

/-- The scan of `xregexp.matchRecursive` with flag `g` and escape character `\`:
walk the text left to right; an escaped character pair is skipped and never opens or
closes; a left delimiter raises the depth (recording the outermost opening), the right
delimiter lowers it, emitting a match when the outermost pair closes; a stray right
delimiter or an unclosed left delimiter is the thrown `Unbalanced delimiter` error.
The open state carries `(start, leftLexeme, innerStart, depth)`. -/
def matchRecAux (k : DelimKind) (text : Str) :
    Nat → Nat → Option (Nat × Str × Nat × Nat) → Except Err (List XMatch)
  | 0, _, _ => .error .outOfFuel
  | fuel + 1, pos, st =>
    match text.drop pos with
    | [] =>
      match st with
      | none => .ok []
      | some _ => .error (.unbalanced text)
    | c :: rest =>
      if c = '\\' ∧ rest ≠ [] then
        matchRecAux k text fuel (pos + 2) st
      else
        match matchLeft k (c :: rest) with
        | some (lex, len) =>
          match st with
          | none => matchRecAux k text fuel (pos + len) (some (pos, lex, pos + len, 1))
          | some (st0, lex0, is0, d) =>
            matchRecAux k text fuel (pos + len) (some (st0, lex0, is0, d + 1))
        | none =>
          if c = matchRightChar k then
            match st with
            | none => .error (.unbalanced text)
            | some (st0, lex0, is0, d) =>
              if d = 1 then
                match matchRecAux k text fuel (pos + 1) none with
                | .ok ms =>
                  .ok ({ index := st0, left := lex0, right := [c],
                         innerText := (text.drop is0).take (pos - is0),
                         outerText := (text.drop st0).take (pos + 1 - st0) } :: ms)
                | .error e => .error e
              else matchRecAux k text fuel (pos + 1) (some (st0, lex0, is0, d - 1))
          else matchRecAux k text fuel (pos + 1) st

/-- `matchRecursive` (src/utils.ts): all outer balanced matches, in order. -/
def matchRecursive (k : DelimKind) (text : Str) : Except Err (List XMatch) :=
  matchRecAux k text (text.length + 1) 0 none

/-- `replaceAt` (src/utils.ts): `s.substr(0, index) + replacement + s.substring(index + length)`. -/
def replaceAt (s : Str) (index length : Nat) (replacement : Str) : Str :=
  s.take index ++ replacement ++ s.drop (index + length)

/-! ## Values, the engine state and its monad -/

/-- A variable value: JavaScript `string | string[]`. -/
inductive Value
  | str (s : Str)
  | arr (l : List Str)
deriving DecidableEq, Repr

/-- `isArrayOfString` (src/cpptools.ts). -/
def isArrayOfString : Value → Bool
  | .arr _ => true
  | .str _ => false

/-- JS truthiness of a value: the empty string is falsy; every array is truthy. -/
def truthyValue : Value → Bool
  | .str s => s ≠ []
  | .arr _ => true

/-- A scope dictionary (`ParamsDictionary`): variable name to value. -/
abbrev Dict := List (Str × Value)

/-- JS object / `Map` lookup. -/
def lookupA : Dict → Str → Option Value
  | [], _ => none
  | (k, v) :: rest, n => if k = n then some v else lookupA rest n

/-- JS `Map.set`: replace an existing binding or append a new one. -/
def insertA : Dict → Str → Value → Dict
  | [], k, v => [(k, v)]
  | (k2, v2) :: rest, k, v =>
    if k2 = k then (k, v) :: rest else (k2, v2) :: insertA rest k v

/-- The mutable context threaded through resolver and engine: the per-call-site
memoisation cache (`resolvedValues`) together with an instrumentation counter of
scope-dictionary accesses (`dictionary[variableName]`), which changes no behaviour. -/
structure St where
  cache : Dict
  consults : Nat
deriving DecidableEq, Repr

/-- The state-and-exceptions monad of the embedding. -/
def M (alpha : Type) : Type := St → Except Err (alpha × St)

instance : Monad M where
  pure a := fun st => .ok (a, st)
  bind m f := fun st =>
    match m st with
    | .ok (a, st2) => f a st2
    | .error e => .error e

/-- `throw new Error(...)`. -/
def M.throw (e : Err) : M alpha := fun _ => .error e

/-- Count one `dictionary[variableName]` access. -/
def M.tick : M Unit := fun st => .ok ((), { st with consults := st.consults + 1 })

/-- Read the memoisation cache. -/
def M.getCache : M Dict := fun st => .ok (st.cache, st)

/-- `resolvedValues.set(k, v)`. -/
def M.setCacheEntry (k : Str) (v : Value) : M Unit :=
  fun st => .ok ((), { st with cache := insertA st.cache k v })

/-- `ExpandPathsOption` (src/interfaces.ts). -/
inductive ExpandPathsOption
  | filesOnly
  | directoriesOnly
  | noExpand
  | expandAll
deriving DecidableEq, Repr

/-- `VariableResolver` (src/interfaces.ts): `(name, expandOption) => string | string[]`. -/
def Resolver : Type := Str → ExpandPathsOption → M Value

/-- The host context: the platform flag (`process.platform === 'win32'`), the workspace
root, the home directory, the process environment and the filesystem glob
(`expandGlob workspaceRoot pattern option`, modelling the `glob` library call of
src/utils.ts including its escaping of results). -/
structure Ctx where
  win : Bool
  workspaceRoot : Str
  home : Str
  env : Str → Option Str
  glob : Str → ExpandPathsOption → List Str

/-- Join of two path segments as `path.join` does: concatenate with `/`, skipping empty
parts, and normalise; no parts yield `.`. -/
def pathJoin (a b : Str) : Str :=
  let joined :=
    match a, b with
    | [], [] => []
    | [], bb => bb
    | aa, [] => aa
    | aa, bb => aa ++ '/' :: bb
  if joined = [] then ['.'] else posixNormalize joined

/-- `joint`'s space join (`Array.prototype.join(' ')`). -/
def joinSpace : List Str → Str
  | [] => []
  | [x] => x
  | x :: rest => x ++ ' ' :: joinSpace rest

/-- `joint` (src/processor.ts): join multi-values with spaces, optionally formatting
each value first. -/
def joint (replacements : Value) (format : Option (Str → Str)) : Str :=
  match replacements with
  | .arr l =>
    joinSpace (match format with
      | some f => l.map f
      | none => l)
  | .str v =>
    match format with
    | some f => f v
    | none => v

/-- `variableListJoin` on a `string | string[]` argument: a single falsy (empty) string
becomes the empty list. -/
def variableListJoinV : Value → Str
  | .arr l => variableListJoin l
  | .str v => if v = [] then variableListJoin [] else variableListJoin [v]

/-- `ss` (src/processor.ts): re-encode values as an interim `$${'…','…'}` list literal,
optionally formatting each value first. -/
def ss (values : Value) (format : Option (Str → Str)) : Str :=
  let values2 :=
    match format with
    | some f =>
      match values with
      | .arr l => Value.arr (l.map f)
      | .str v => Value.str (f v)
    | none => values
  ['$', '$', '{'] ++ variableListJoinV values2 ++ ['}']

/-- An extglob opener `@(`, `+(`, `!(` somewhere in the pattern. -/
def hasExtglobMarker : Str → Bool
  | a :: '(' :: rest =>
    if a = '@' || a = '+' || a = '!' then true else hasExtglobMarker ('(' :: rest)
  | _ :: rest => hasExtglobMarker rest
  | [] => false

/-- Model of `glob.hasMagic` (minimatch): the pattern contains a glob construct — `*`,
`?`, a character class `[…`, a brace set `{…`, or an extglob opener.  (Minimatch treats
an unclosed `[` or `{` as literal; the model over-approximates those rare cases, which
do not arise in the runs verified here.) -/
def hasMagic (s : Str) : Bool :=
  (s.any fun c => c = '*' || c = '?' || c = '[' || c = '{') || hasExtglobMarker s

/-- `lodash.uniq`: deduplicate preserving first occurrences. -/
def uniqJS (l : List Str) : List Str :=
  l.foldl (fun acc x => if x ∈ acc then acc else acc ++ [x]) []

/-- The `variableName` pattern of src/processor.ts: `^[a-zA-Z0-9_-]+$`. -/
def variableNameTest (s : Str) : Bool :=
  s ≠ [] && s.all fun c => c.isAlphanum || c = '_' || c = '-'

/-! ## The template expansion engine and the variable resolver
(src/processor.ts `expandTemplates` / `getMultivalues` / `expandMultivalues`,
src/builder.ts `Builder.resolveVariable`) -/

/-- The monadic loop of `replaceRecursive` (src/utils.ts): apply `replacer` to every
outer match, splicing each changed replacement at the recorded index adjusted by the
running length offset; a replacement equal to the matched text is skipped. -/
def replaceLoopM (replacer : XMatch → M Str) : List XMatch → Str → Int → M Str
  | [], text, _ => pure text
  | m :: ms, text, offset => do
    let rep ← replacer m
    if rep = m.outerText then
      replaceLoopM replacer ms text offset
    else
      replaceLoopM replacer ms
        (replaceAt text (Int.toNat (m.index + offset)) m.outerText.length rep)
        (offset + rep.length - m.outerText.length)

/-- `replaceRecursive` (src/utils.ts). -/
def replaceRecursiveM (k : DelimKind) (text : Str) (replacer : XMatch → M Str) : M Str :=
  match matchRecursive k text with
  | .ok ms => replaceLoopM replacer ms text 0
  | .error e => M.throw e

mutual

/-- `expandTemplates` (src/processor.ts): the four-pass rewrite — `(...)` groups,
`[...]` path groups, `${name}` single variables, `$${...}` multi-value variables — in
sub-template mode possibly returning a multi-valued array that the caller fans out
over.  Recursion depth is bounded by `fuel`. -/
def expandTemplatesF : Nat → Ctx → Str → Resolver → Bool → ExpandPathsOption → M Value
  | 0, _, _, _, _, _ => M.throw .outOfFuel
  | fuel + 1, ctx, template0, variableResolver, inSubtemplate, expandOption => do
    let template1 ← replaceRecursiveM .paren template0 fun m => do
      let replacements ← expandTemplatesF fuel ctx m.innerText variableResolver true expandOption
      pure (joint replacements none)
    let template2 ← replaceRecursiveM .bracket template1 fun m => do
      let replacements ← expandTemplatesF fuel ctx m.innerText variableResolver true expandOption
      if inSubtemplate ∧ isArrayOfString replacements then
        pure (ss replacements (some (formatPath ctx.win)))
      else
        pure (joint replacements (some (formatPath ctx.win)))
    let template3 ← replaceRecursiveM .dollarBrace template2 fun m => do
      if m.left ≠ ['$', '{'] then
        pure m.outerText
      else do
        let resolved ← variableResolver m.innerText expandOption
        let replacement := joint resolved none
        let replacements ←
          expandTemplatesF fuel ctx replacement variableResolver inSubtemplate expandOption
        if inSubtemplate ∧ isArrayOfString replacements then
          pure (ss replacements none)
        else
          pure (joint replacements none)
    match matchRecursive .dollarBrace template3 with
    | .error e => M.throw e
    | .ok allMatches =>
      match allMatches.filter fun m => m.left = ['$', '$', '{'] with
      | [] => pure (.str template3)
      | m :: restMatches =>
        if inSubtemplate then
          if restMatches ≠ [] then
            M.throw (.subtemplateArity template3)
          else do
            let values ← getMultivaluesF fuel ctx m.innerText variableResolver expandOption
            let replacements ← values.foldlM (fun acc v => do
              let replacement := replaceAt template3 m.index m.outerText.length v
              let xt ←
                expandTemplatesF fuel ctx replacement variableResolver inSubtemplate expandOption
              pure (acc ++ [joint xt none])) ([] : List Str)
            pure (.arr replacements)
        else do
          let template4 ← (m :: restMatches).foldlM (fun tmpl mm => do
            let values ← getMultivaluesF fuel ctx mm.innerText variableResolver expandOption
            let replacements ← values.foldlM (fun acc v => do
              let xt ← expandTemplatesF fuel ctx v variableResolver inSubtemplate expandOption
              pure (acc ++ [joint xt none])) ([] : List Str)
            pure (replaceAt tmpl mm.index mm.outerText.length (joinSpace replacements)))
            template3
          pure (.str template4)

/-- `getMultivalues` (src/processor.ts): resolve the inner text of a `$${...}` — a bare
variable name is resolved (a falsy resolved value is the `Variable '…' is undefined`
error), a literal list is parsed with the list grammar, anything else is the
`Unable to resolve variable '…'` error — then the values are expanded. -/
def getMultivaluesF : Nat → Ctx → Str → Resolver → ExpandPathsOption → M (List Str)
  | 0, _, _, _, _ => M.throw .outOfFuel
  | fuel + 1, ctx, variableText, variableResolver, expandOption => do
    let values ←
      if variableNameTest variableText then do
        let paramValue ← variableResolver variableText expandOption
        if ¬ truthyValue paramValue then
          M.throw (.undefinedVariable variableText)
        else
          match paramValue with
          | .str v => pure [v]
          | .arr l => pure l
      else if variableListValid variableText then
        match variableListParse variableText with
        | some vs => pure vs
        | none => M.throw (.malformedList variableText)
      else
        M.throw (.unresolvedVariable variableText)
    expandMultivaluesF fuel ctx values variableResolver expandOption

/-- `expandMultivalues` (src/processor.ts): expand every value as a sub-template; array
results are folded in with `uniq`, single glob patterns are expanded against the
filesystem, plain single strings are appended. -/
def expandMultivaluesF : Nat → Ctx → List Str → Resolver → ExpandPathsOption → M (List Str)
  | 0, _, _, _, _ => M.throw .outOfFuel
  | fuel + 1, ctx, values, variableResolver, expandOption =>
    values.foldlM (fun newValues value => do
      let xt ← expandTemplatesF fuel ctx value variableResolver true expandOption
      match xt with
      | .arr l => pure (uniqJS (newValues ++ l))
      | .str v =>
        if hasMagic (unescapeTemplateText v) then
          pure (uniqJS (newValues ++ ctx.glob (unescapeTemplateText v) expandOption))
        else
          pure (newValues ++ [v])) []

/-- `Builder.resolveVariable` (src/builder.ts): memoised resolution through the scope
stack.  `variables` is the array of scope dictionaries, outermost first.  The inner
`resolver` closure is reproduced faithfully, including its lookup of `variableName`
(rather than the requested `name`) in `resolvedValues` and its JS-truthiness test of
`currentValue`. -/
def resolveVariableF : Nat → Ctx → List Dict → Str → ExpandPathsOption → M Value
  | 0, _, _, _, _ => M.throw .outOfFuel
  | fuel + 1, ctx, varDicts, variableName, expandOption => do
    let cache ← M.getCache
    match lookupA cache variableName with
    | some currentValue => pure currentValue
    | none =>
      if variableName.head? = some '~' then do
        let cv := Value.str (escapeTemplateText (pathJoin ctx.home (variableName.drop 1)))
        M.setCacheEntry variableName cv
        pure cv
      else if variableName.take 4 = ['e', 'n', 'v', ':'] then
        match ctx.env (variableName.drop 4) with
        | none => M.throw (.unresolvedVariable variableName)
        | some v => do
          let cv := Value.str (if v = [] then v else escapeTemplateText v)
          M.setCacheEntry variableName cv
          pure cv
      else do
        let currentValue ← varDicts.foldlM (fun currentValue dictionary => do
          M.tick
          match lookupA dictionary variableName with
          | none => pure currentValue
          | some newValue =>
            let resolver : Resolver := fun name _ => fun st2 =>
              if name = variableName then
                match currentValue with
                | some cv =>
                  if truthyValue cv then .ok (cv, st2)
                  else .error (.unresolvedVariable variableName)
                | none => .error (.unresolvedVariable variableName)
              else
                match lookupA st2.cache variableName with
                | some v => .ok (v, st2)
                | none => resolveVariableF fuel ctx varDicts name expandOption st2
            match newValue with
            | .arr l => do
              let newValues ← l.foldlM (fun acc value => do
                let values ← expandTemplatesF fuel ctx value resolver true expandOption
                match values with
                | .arr vs => pure (uniqJS (acc ++ vs))
                | .str v => pure (uniqJS (acc ++ [v]))) ([] : List Str)
              pure (some (Value.arr newValues))
            | .str sv => do
              let nv ← expandTemplatesF fuel ctx sv resolver true expandOption
              pure (some nv)) (none : Option Value)
        match currentValue with
        | none => M.throw (.unresolvedVariable variableName)
        | some cv => do
          M.setCacheEntry variableName cv
          pure cv

end

/-- The per-step / per-command resolver closures of src/builder.ts
(`stepVariableResolver`, `cmdVariableResolver`): forward every lookup to
`resolveVariable` over a fixed scope stack. -/
def mkResolver (fuel : Nat) (ctx : Ctx) (varDicts : List Dict) : Resolver :=
  fun name expandOption => resolveVariableF fuel ctx varDicts name expandOption

/-- `expandTemplate` (src/processor.ts): expand a template to a single string by joining
and unescaping. -/
def expandTemplate (fuel : Nat) (ctx : Ctx) (template : Str) (variableResolver : Resolver) :
    M Str := do
  let replacements ← expandTemplatesF fuel ctx template variableResolver false .expandAll
  pure (unescapeTemplateText (joint replacements none))

/-! ## Evaluation lemmas for the engine monad -/

theorem M_bind_def {α β : Type} (m : M α) (f : α → M β) (st : St) :
    (m >>= f) st = match m st with
      | .ok (a, st2) => f a st2
      | .error e => .error e := rfl

theorem M_pure_def {α : Type} (a : α) (st : St) : (pure a : M α) st = .ok (a, st) := rfl

theorem M_throw_def {α : Type} (e : Err) (st : St) : (M.throw e : M α) st = .error e := rfl

theorem M_tick_def (st : St) :
    M.tick st = .ok ((), { st with consults := st.consults + 1 }) := rfl

theorem M_getCache_def (st : St) : M.getCache st = .ok (st.cache, st) := rfl

theorem M_setCacheEntry_def (k : Str) (v : Value) (st : St) :
    M.setCacheEntry k v st = .ok ((), { st with cache := insertA st.cache k v }) := rfl

theorem lookupA_insertA (m : Dict) (k : Str) (v : Value) :
    lookupA (insertA m k v) k = some v := by
  induction m with
  | nil => simp [insertA, lookupA]
  | cons p rest ih =>
    by_cases hk : p.1 = k
    · simp [insertA, hk, lookupA]
    · simp [insertA, hk, lookupA, ih]

/-! ## C1: cycle behaviour of the resolver -/

/-- A fixed host context for concrete runs (POSIX host, no matching files). -/
def ctxC : Ctx :=
  { win := false, workspaceRoot := ['/', 'w'], home := ['/', 'h'],
    env := fun _ => none, glob := fun _ _ => [] }

/-- The transitive cycle of the claim: a scope defining `a = "${b}"` and `b = "${a}"`. -/
def cycleDict : Dict :=
  [(['a'], .str ['$', '{', 'b', '}']), (['b'], .str ['$', '{', 'a', '}'])]

/-- The direct self-reference of the claim: a scope defining `a = "${a}"` with no
outer-scope value for `a`. -/
def directDict : Dict := [(['a'], .str ['$', '{', 'a', '}'])]

theorem cycle_step_a (n k : Nat)
    (h : ∀ k2, resolveVariableF (n + 1) ctxC [cycleDict] ['b'] .expandAll ⟨[], k2⟩ =
      .error .outOfFuel) :
    resolveVariableF (n + 2) ctxC [cycleDict] ['a'] .expandAll ⟨[], k⟩ =
      .error .outOfFuel := by
  rw [resolveVariableF]
  simp only [M_bind_def, M_getCache_def, lookupA, List.foldlM, M_tick_def]
  simp only [show (['a'] : Str).head? = some 'a' from rfl]
  simp only [M_bind_def, M_pure_def, M_throw_def, M_tick_def, M_setCacheEntry_def,
    M_getCache_def, expandTemplatesF, replaceRecursiveM, replaceLoopM, lookupA,
    List.foldlM, reduceIte,
    show matchRecursive .paren ['$', '{', 'b', '}'] = .ok [] from rfl,
    show matchRecursive .bracket ['$', '{', 'b', '}'] = .ok [] from rfl,
    show matchRecursive .dollarBrace ['$', '{', 'b', '}'] =
      .ok [{ index := 0, outerText := ['$', '{', 'b', '}'], innerText := ['b'],
             left := ['$', '{'], right := ['}'] }] from rfl,
    show (some 'a' = some '~') = False from by simp,
    show (List.take 4 ['a'] = ['e', 'n', 'v', ':']) = False from by simp,
    show ((['b'] : Str) = ['a']) = False from by simp,
    show ((['$', '{'] : Str) ≠ ['$', '{']) = False from by simp,
    if_false, h]

theorem cycle_step_b (n k : Nat)
    (h : ∀ k2, resolveVariableF (n + 1) ctxC [cycleDict] ['a'] .expandAll ⟨[], k2⟩ =
      .error .outOfFuel) :
    resolveVariableF (n + 2) ctxC [cycleDict] ['b'] .expandAll ⟨[], k⟩ =
      .error .outOfFuel := by
  rw [resolveVariableF]
  simp only [M_bind_def, M_getCache_def, lookupA, List.foldlM, M_tick_def]
  simp only [show (['b'] : Str).head? = some 'b' from rfl]
  simp only [M_bind_def, M_pure_def, M_throw_def, M_tick_def, M_setCacheEntry_def,
    M_getCache_def, expandTemplatesF, replaceRecursiveM, replaceLoopM, lookupA,
    List.foldlM, reduceIte,
    show matchRecursive .paren ['$', '{', 'a', '}'] = .ok [] from rfl,
    show matchRecursive .bracket ['$', '{', 'a', '}'] = .ok [] from rfl,
    show matchRecursive .dollarBrace ['$', '{', 'a', '}'] =
      .ok [{ index := 0, outerText := ['$', '{', 'a', '}'], innerText := ['a'],
             left := ['$', '{'], right := ['}'] }] from rfl,
    show (some 'b' = some '~') = False from by simp,
    show (List.take 4 ['b'] = ['e', 'n', 'v', ':']) = False from by simp,
    show ((['a'] : Str) = ['b']) = False from by simp,
    show ((['$', '{'] : Str) ≠ ['$', '{']) = False from by simp,
    if_false, h]

theorem cycle_diverges_aux :
    ∀ fuel : Nat,
      (∀ k, resolveVariableF fuel ctxC [cycleDict] ['a'] .expandAll ⟨[], k⟩ =
        .error .outOfFuel) ∧
      (∀ k, resolveVariableF fuel ctxC [cycleDict] ['b'] .expandAll ⟨[], k⟩ =
        .error .outOfFuel) := by
  intro fuel
  induction fuel using Nat.strong_induction_on with
  | _ fuel ih =>
    match fuel with
    | 0 => exact ⟨fun _ => rfl, fun _ => rfl⟩
    | 1 => exact ⟨fun _ => rfl, fun _ => rfl⟩
    | (n + 2) =>
      exact ⟨fun k => cycle_step_a n k (ih (n + 1) (by omega)).2,
             fun k => cycle_step_b n k (ih (n + 1) (by omega)).1⟩

/-- C1: a direct self-reference (`a = "${a}"` with no outer value) raises the
`Unable to resolve variable` error and terminates, but a transitive cyclic chain
(`a = "${b}"`, `b = "${a}"`) makes `resolveVariable` recurse indefinitely: at *every*
fuel bound the run is still unfinished (`outOfFuel`), it never raises a resolution
error and never returns.  This contradicts the claim (and agrees with the source's own
`FIXME: detect circular references`). -/
theorem resolveVariable_cycle_behaviour :
    (∀ fuel k, resolveVariableF fuel ctxC [cycleDict] ['a'] .expandAll ⟨[], k⟩ =
      .error .outOfFuel) ∧
    (∀ n k, resolveVariableF (n + 2) ctxC [directDict] ['a'] .expandAll ⟨[], k⟩ =
      .error (.unresolvedVariable ['a'])) := by
  constructor
  · exact fun fuel k => (cycle_diverges_aux fuel).1 k
  · intro n k
    rfl

/-! ## C2: sub-template arity -/

/-- The scope of the C2 scenario: `xs` multi-valued, `ys` single-valued. -/
def arityDict : Dict := [(['x', 's'], .arr [['a'], ['b']]), (['y', 's'], .str ['c'])]

/-- C2 counterexample: the claim's success case fails.  For the template
`($${xs} $${ys})` with `xs = ["a","b"]` multi-valued and `ys = "c"` single-valued,
`expandTemplates` raises the `Subtemplate contains more than one multi-value variable`
error instead of succeeding: the check counts `$${...}` occurrences lexically, before
any value is resolved. -/
theorem expandTemplates_arity_counterexample :
    expandTemplatesF 6 ctxC ['(', '$', '$', '{', 'x', 's', '}', ' ', '$', '$', '{', 'y', 's', '}', ')']
        (mkResolver 6 ctxC [arityDict]) false .expandAll ⟨[], 0⟩ =
      .error (.subtemplateArity ['$', '$', '{', 'x', 's', '}', ' ', '$', '$', '{', 'y', 's', '}']) :=
  rfl

/-- C2 (amended): in sub-template mode a text still containing *two* `$${...}`
occurrences after the group, path-group and single-variable passes raises the arity
error for **every** resolver, state and expansion option — whether the resolved values
are multi- or single-valued is never examined; with a single `$${...}` occurrence the
expansion succeeds and returns the fanned-out result (here `xs = ["a","b"]` fans out to
`"a b"`). -/
theorem expandTemplates_subtemplate_arity :
    (∀ (n : Nat) (ctx : Ctx) (r : Resolver) (opt : ExpandPathsOption) (st : St),
      expandTemplatesF (n + 1) ctx
          ['$', '$', '{', 'x', 's', '}', ' ', '$', '$', '{', 'y', 's', '}'] r true opt st =
        .error (.subtemplateArity
          ['$', '$', '{', 'x', 's', '}', ' ', '$', '$', '{', 'y', 's', '}'])) ∧
    (∃ st2 : St,
      expandTemplatesF 6 ctxC ['(', '$', '$', '{', 'x', 's', '}', ')']
          (mkResolver 6 ctxC [arityDict]) false .expandAll ⟨[], 0⟩ =
        .ok (.str ['a', ' ', 'b'], st2)) :=
  ⟨fun _ _ _ _ _ => rfl, ⟨_, rfl⟩⟩

/-! ## C3: memoisation of the resolver -/

/-- A successful resolution leaves the resolved value memoised in the cache
(`resolvedValues.set(variableName, currentValue)` on every non-cached path, and a
cache hit presupposes the entry). -/
theorem resolveVariableF_cache_of_ok (fuel : Nat) (ctx : Ctx) (vd : List Dict) (name : Str)
    (opt : ExpandPathsOption) (st st1 : St) (v : Value)
    (h : resolveVariableF fuel ctx vd name opt st = .ok (v, st1)) :
    lookupA st1.cache name = some v := by
  cases fuel with
  | zero =>
    simp only [resolveVariableF, M_throw_def] at h
    exact Except.noConfusion h
  | succ n =>
    rw [resolveVariableF] at h
    simp only [M_bind_def, M_getCache_def] at h
    rcases hc : lookupA st.cache name with _ | cv
    · rw [hc] at h
      dsimp only [] at h
      by_cases h1 : name.head? = some '~'
      · rw [if_pos h1] at h
        simp only [M_bind_def, M_setCacheEntry_def, M_pure_def] at h
        obtain ⟨hv, hst⟩ := Prod.mk.inj (Except.ok.inj h)
        subst hv
        rw [← hst]
        exact lookupA_insertA _ _ _
      · rw [if_neg h1] at h
        by_cases h2 : name.take 4 = ['e', 'n', 'v', ':']
        · rw [if_pos h2] at h
          rcases he : ctx.env (name.drop 4) with _ | ev
          · rw [he] at h
            simp only [M_throw_def] at h
            exact Except.noConfusion h
          · rw [he] at h
            dsimp only [] at h
            simp only [M_bind_def, M_setCacheEntry_def, M_pure_def] at h
            obtain ⟨hv, hst⟩ := Prod.mk.inj (Except.ok.inj h)
            subst hv
            rw [← hst]
            exact lookupA_insertA _ _ _
        · rw [if_neg h2] at h
          simp only [M_bind_def] at h
          split at h
          · rename_i a st2 heq
            split at h
            · simp only [M_throw_def] at h
              exact Except.noConfusion h
            · rename_i cv2
              simp only [M_bind_def, M_setCacheEntry_def, M_pure_def] at h
              obtain ⟨hv, hst⟩ := Prod.mk.inj (Except.ok.inj h)
              subst hv
              rw [← hst]
              exact lookupA_insertA _ _ _
          · exact Except.noConfusion h
    · rw [hc] at h
      dsimp only [] at h
      simp only [M_pure_def] at h
      obtain ⟨hv, hst⟩ := Prod.mk.inj (Except.ok.inj h)
      subst hv
      subst hst
      exact hc

/-- C3: after a successful call `resolveVariable(name)` producing value `v` and cache
state `st1`, every further call for the same name with that cache returns exactly `v`
(the cached value verbatim) and leaves the state — cache *and* the dictionary-access
counter — unchanged: the backing scope dictionaries are not consulted again for that
name (the first call walked them once; the second performs zero accesses). -/
theorem resolveVariable_memoised (fuel : Nat) (ctx : Ctx) (vd : List Dict) (name : Str)
    (opt : ExpandPathsOption) (st st1 : St) (v : Value)
    (h : resolveVariableF fuel ctx vd name opt st = .ok (v, st1)) :
    ∀ (m : Nat) (opt2 : ExpandPathsOption),
      resolveVariableF (m + 1) ctx vd name opt2 st1 = .ok (v, st1) := by
  have hc := resolveVariableF_cache_of_ok fuel ctx vd name opt st st1 v h
  intro m opt2
  rw [resolveVariableF]
  simp only [M_bind_def, M_getCache_def, hc]
  rfl

/-- Witness for `resolveVariable_memoised`: with the single scope `{t: "x"}` the first
call (fuel 3) succeeds with value `"x"`, cache `{t ↦ "x"}` and one dictionary access;
the theorem then gives the second call verbatim with zero further accesses. -/
theorem resolveVariable_memoised_witness :
    resolveVariableF 1 ctxC [[(['t'], .str ['x'])]] ['t'] .expandAll
        ⟨[(['t'], Value.str ['x'])], 1⟩ =
      .ok (.str ['x'], ⟨[(['t'], Value.str ['x'])], 1⟩) :=
  resolveVariable_memoised 3 ctxC [[(['t'], .str ['x'])]] ['t'] .expandAll
    ⟨[], 0⟩ ⟨[(['t'], Value.str ['x'])], 1⟩ (.str ['x']) (by rfl) 0 .expandAll

/-! ## C4: the incremental-skip decision of the per-file task
(src/builder.ts `Builder.runBuildStep`, per-file branch) -/

/-- What the guarded segment of a per-file task did: how much it added to
`filesSkipped`, and whether control reached the subprocess spawn (`execCommand`). -/
structure FileTaskEffect where
  filesSkippedDelta : Nat
  spawned : Bool
deriving DecidableEq, Repr

/-- The incremental-skip segment of the per-file task of `Builder.runBuildStep`
(src/builder.ts): with `outputFile` set, when rebuilds are not forced and the resolved
output file exists with an mtime strictly newer than the input file's mtime, the task
increments `filesSkipped` and returns before the command; in every other case control
falls through to `execCommand`.  `fs` maps a path to the mtime of an existing file
(`checkFileExists` combined with `getFileStatus`); mtimes are integers
(milliseconds). -/
def fileTaskSkipCheck (forceRebuild : Bool) (fs : Str → Option Int)
    (fullOutputFilePath : Str) (inputFileDate : Int) : FileTaskEffect :=
  if forceRebuild = false ∧ (fs fullOutputFilePath).isSome then
    match fs fullOutputFilePath with
    | some outputMtime =>
      if outputMtime > inputFileDate then { filesSkippedDelta := 1, spawned := false }
      else { filesSkippedDelta := 0, spawned := true }
    | none => { filesSkippedDelta := 0, spawned := true }
  else { filesSkippedDelta := 0, spawned := true }

/-- C4: with `forceRebuild` disabled, a per-file task whose resolved output file exists
with mtime strictly newer than the input's counts exactly one skipped file and spawns
no subprocess; if the output is absent, or its mtime is not strictly newer, the command
runs (and nothing is counted skipped); `forceRebuild` disables the check entirely. -/
theorem incremental_skip_spec (fs : Str → Option Int) (out : Str) (inMtime : Int) :
    (∀ m, fs out = some m → inMtime < m →
      fileTaskSkipCheck false fs out inMtime = ⟨1, false⟩) ∧
    (fs out = none → fileTaskSkipCheck false fs out inMtime = ⟨0, true⟩) ∧
    (∀ m, fs out = some m → ¬ inMtime < m →
      fileTaskSkipCheck false fs out inMtime = ⟨0, true⟩) ∧
    (∀ forceRebuild, forceRebuild = true →
      fileTaskSkipCheck forceRebuild fs out inMtime = ⟨0, true⟩) := by
  refine ⟨?_, ?_, ?_, ?_⟩
  · intro m hm hlt
    simp [fileTaskSkipCheck, hm, hlt]
  · intro hm
    simp [fileTaskSkipCheck, hm]
  · intro m hm hlt
    simp [fileTaskSkipCheck, hm, hlt]
  · intro fr hfr
    subst hfr
    simp [fileTaskSkipCheck]

/-- Witness for `incremental_skip_spec` at concrete mtimes: output at 5, input at 3 is
skipped; reversed mtimes run the command; a missing output runs the command;
`forceRebuild` runs the command. -/
theorem incremental_skip_spec_witness :
    fileTaskSkipCheck false (fun _ => some 5) ['o'] 3 = ⟨1, false⟩ ∧
    fileTaskSkipCheck false (fun _ => some 3) ['o'] 5 = ⟨0, true⟩ ∧
    fileTaskSkipCheck false (fun _ => none) ['o'] 3 = ⟨0, true⟩ ∧
    fileTaskSkipCheck true (fun _ => some 5) ['o'] 3 = ⟨0, true⟩ :=
  ⟨(incremental_skip_spec (fun _ => some 5) ['o'] 3).1 5 rfl (by omega),
   (incremental_skip_spec (fun _ => some 3) ['o'] 5).2.2.1 3 rfl (by omega),
   (incremental_skip_spec (fun _ => none) ['o'] 3).2.1 rfl,
   (incremental_skip_spec (fun _ => some 5) ['o'] 3).2.2.2 true rfl⟩

/-! ## C10: the once-mode sentinel result and its aggregation by the driver
(src/builder.ts `Builder.runBuildStep` else-branch, `Builder.runBuild`) -/

/-- The `[filesProcessed, filesSkipped, errorsEncountered]` triple a step returns. -/
structure StepResult where
  filesProcessed : Int
  filesSkipped : Nat
  errorsEncountered : Nat
deriving DecidableEq, Repr

/-- The command loop of the once-mode branch of `Builder.runBuildStep`
(src/builder.ts): each entry of `outcomes` is the success of one executed command; an
error increments the error count and, without `continueOnError`, returns immediately;
every return site reports the sentinel `filesProcessed = -1` and `filesSkipped = 0`. -/
def runBuildStepOnce (continueOnError : Bool) : List Bool → Nat → StepResult
  | [], errors => ⟨-1, 0, errors⟩
  | ok :: rest, errors =>
    if ok then runBuildStepOnce continueOnError rest errors
    else if continueOnError then runBuildStepOnce continueOnError rest (errors + 1)
    else ⟨-1, 0, errors + 1⟩

/-- One line of the per-step summary log of `Builder.runBuild`: with file counts, or —
for a sentinel step — the short form without them. -/
inductive StepSummary
  | withCounts (filesProcessed : Int) (filesSkipped : Nat) (errors : Nat)
  | withoutCounts (errors : Nat)
deriving DecidableEq, Repr

/-- The aggregation loop of `Builder.runBuild` (src/builder.ts): every step adds its
skipped and error counts to the totals; a step reporting `filesProcessed == -1` logs
the summary without file counts and is *not* added to `totalFilesProcessed`; after a
step with errors the loop stops unless `continueOnError`. -/
def runBuildLoop (continueOnError : Bool) :
    List StepResult → Int → Nat → Nat → (Int × Nat × Nat) × List StepSummary
  | [], tp, ts, te => ((tp, ts, te), [])
  | r :: rest, tp, ts, te =>
    let ts2 := ts + r.filesSkipped
    let te2 := te + r.errorsEncountered
    if r.filesProcessed = -1 then
      if ¬continueOnError ∧ r.errorsEncountered > 0 then
        ((tp, ts2, te2), [StepSummary.withoutCounts r.errorsEncountered])
      else
        let rec2 := runBuildLoop continueOnError rest tp ts2 te2
        (rec2.1, StepSummary.withoutCounts r.errorsEncountered :: rec2.2)
    else
      if ¬continueOnError ∧ r.errorsEncountered > 0 then
        ((tp + r.filesProcessed, ts2, te2),
          [StepSummary.withCounts r.filesProcessed r.filesSkipped r.errorsEncountered])
      else
        let rec2 := runBuildLoop continueOnError rest (tp + r.filesProcessed) ts2 te2
        (rec2.1,
          StepSummary.withCounts r.filesProcessed r.filesSkipped r.errorsEncountered :: rec2.2)

/-- The prefix of steps the driver actually processes before stopping on error. -/
def executedSteps (continueOnError : Bool) : List StepResult → List StepResult
  | [] => []
  | r :: rest =>
    if ¬continueOnError ∧ r.errorsEncountered > 0 then [r]
    else r :: executedSteps continueOnError rest

/-- Sum of `filesProcessed` over the non-sentinel steps. -/
def nonSentinelSum : List StepResult → Int
  | [] => 0
  | r :: rest =>
    (if r.filesProcessed = -1 then 0 else r.filesProcessed) + nonSentinelSum rest

/-- C10: a once-mode step (no `filePattern` and no `directoryPattern`, including steps
with `fileList`) always returns `filesProcessed = -1` and `filesSkipped = 0` whatever
the command outcomes; and the driver treats `-1` as a sentinel — it is never added to
the aggregated `totalFilesProcessed` (which equals the sum of `filesProcessed` over the
executed non-sentinel steps) and the per-step summary omits the file counts exactly for
the sentinel steps. -/
theorem once_mode_sentinel :
    (∀ (continueOnError : Bool) (outcomes : List Bool) (errors : Nat),
      (runBuildStepOnce continueOnError outcomes errors).filesProcessed = -1 ∧
      (runBuildStepOnce continueOnError outcomes errors).filesSkipped = 0) ∧
    (∀ (continueOnError : Bool) (results : List StepResult) (tp : Int) (ts te : Nat),
      (runBuildLoop continueOnError results tp ts te).1.1 =
        tp + nonSentinelSum (executedSteps continueOnError results) ∧
      (runBuildLoop continueOnError results tp ts te).2 =
        (executedSteps continueOnError results).map fun r =>
          if r.filesProcessed = -1 then StepSummary.withoutCounts r.errorsEncountered
          else StepSummary.withCounts r.filesProcessed r.filesSkipped r.errorsEncountered) := by
  constructor
  · intro cOE outcomes
    induction outcomes with
    | nil => intro errors; exact ⟨rfl, rfl⟩
    | cons ok rest ih =>
      intro errors
      by_cases hok : ok
      · simpa [runBuildStepOnce, hok] using ih errors
      · by_cases hc : cOE
        · simpa [runBuildStepOnce, hok, hc] using ih (errors + 1)
        · simp [runBuildStepOnce, hok, hc]
  · intro cOE results
    induction results with
    | nil => intro tp ts te; exact ⟨by simp [runBuildLoop, executedSteps, nonSentinelSum], rfl⟩
    | cons r rest ih =>
      intro tp ts te
      have hihS := ih tp (ts + r.filesSkipped) (te + r.errorsEncountered)
      have hihN := ih (tp + r.filesProcessed) (ts + r.filesSkipped) (te + r.errorsEncountered)
      by_cases hs : r.filesProcessed = -1 <;>
        cases cOE <;>
        by_cases he : 0 < r.errorsEncountered <;>
        refine ⟨?_, ?_⟩ <;>
        simp [runBuildLoop, executedSteps, nonSentinelSum, hs, he,
          hihS.1, hihS.2, hihN.1, hihN.2] <;>
        omega


/-! ## The C/C++ include-dependency analyser (src/cppAnalyzer.ts `cppAnalyzer`) -/

/-- Node `path.posix.basename`: the last segment, ignoring trailing separators. -/
def basename (p : Str) : Str :=
  ((p.reverse.dropWhile fun c => c = '/').takeWhile fun c => c ≠ '/').reverse

/-- Node `path.posix.dirname`: everything before the last segment; `.` when there is no
directory part and `/` when only the root remains. -/
def dirname (p : Str) : Str :=
  let r := ((p.reverse.dropWhile fun c => c = '/').dropWhile fun c => c ≠ '/').dropWhile
    fun c => c = '/'
  if r = [] then (if p.head? = some '/' then ['/'] else ['.']) else r.reverse

/-- Node `path.isAbsolute` (POSIX). -/
def isAbsolutePath (p : Str) : Bool := p.head? = some '/'

/-- JS `String.prototype.trimLeft`. -/
def jsTrimLeft (s : Str) : Str := s.dropWhile isJsWs

/-- JS `String.prototype.indexOf(pat, i)`, fuelled scan: the first position `j ≥ i`
where `pat` occurs in `line` (`none` models the JS result `-1`). -/
def indexOfFromAux (line pat : Str) : Nat → Nat → Option Nat
  | 0, _ => none
  | fuel + 1, j =>
    if j + pat.length ≤ line.length then
      if pat.isPrefixOf (line.drop j) then some j else indexOfFromAux line pat fuel (j + 1)
    else none

def indexOfFrom (line pat : Str) (i : Nat) : Option Nat :=
  indexOfFromAux line pat (line.length + 1) i

/-- `cppAnalyzer.getLinePartText`: the trimmed slice `[textStart, textEnd)` of the line
(`textEnd` defaulting to the line length; an unset start or an empty range yields
the empty string). -/
def getLinePartText (line : Str) (textStart : Option Nat) (textEnd : Option Nat) : Str :=
  let tEnd := textEnd.getD line.length
  match textStart with
  | none => []
  | some tStart => if tEnd ≤ tStart then [] else jsTrim ((line.take tEnd).drop tStart)

/-- The comment-aware scan of one line in `cppAnalyzer.getIncludedFiles`: find the first
non-blank line part outside block and line comments.  Returns the part (`[]` stands for
both an unset and an empty `linePartText`, which JS treats alike) and the block-comment
state carried to the next line.  The index mirrors the source loop: after handling a
delimiter found at position `p`, scanning resumes at `p + 2` (assignment to `p + 1`
followed by the loop increment). -/
def scanLineLoop (line : Str) : Nat → Nat → Bool → Option Nat → Str × Bool
  | 0, _, inCB, _ => ([], inCB)
  | fuel + 1, i, inCB, lps =>
    if i < line.length - 1 then
      if inCB then
        match indexOfFrom line ['*', '/'] i with
        | some cbe => scanLineLoop line fuel (cbe + 2) false (some (cbe + 2))
        | none => ([], true)
      else
        match indexOfFrom line ['/', '*'] i, indexOfFrom line ['/', '/'] i with
        | some cbs, some lcs =>
          if cbs < lcs then
            let text := getLinePartText line lps (some cbs)
            if text ≠ [] then (text, true) else scanLineLoop line fuel (cbs + 2) true lps
          else (getLinePartText line lps (some lcs), false)
        | some cbs, none =>
          let text := getLinePartText line lps (some cbs)
          if text ≠ [] then (text, true) else scanLineLoop line fuel (cbs + 2) true lps
        | none, some lcs => (getLinePartText line lps (some lcs), false)
        | none, none => (getLinePartText line (some i) (some line.length), inCB)
    else ([], inCB)

/-- The `#include` extraction of `cppAnalyzer.getIncludedFiles`: when the first
non-comment line part starts with `#include`, record the token delimited by `"…"` or
`<…>` (requiring the closing delimiter at a position `> 0`). -/
def extractInclude (linePartText : Str) : Option Str :=
  if ("#include".data : Str).isPrefixOf linePartText then
    let includeFile := jsTrimLeft (linePartText.drop 8)
    if includeFile.head? = some '"' then
      match indexOfFrom includeFile ['"'] 1 with
      | some cq => if 0 < cq then some ((includeFile.take cq).drop 1) else none
      | none => none
    else if includeFile.head? = some '<' then
      match indexOfFrom includeFile ['>'] 1 with
      | some cq => if 0 < cq then some ((includeFile.take cq).drop 1) else none
      | none => none
    else none
  else none

/-- `cppAnalyzer.getIncludedFiles`, one line at a time, with the multi-line
block-comment state threaded across lines (a falsy — unset or empty — line part is
skipped). -/
def getIncludedFilesLines : List Str → Bool → List Str
  | [], _ => []
  | line :: rest, inCB =>
    let line2 := jsTrimLeft line
    let res := scanLineLoop line2 (line2.length + 2) 0 inCB (if inCB then none else some 0)
    match extractInclude res.1 with
    | some inc => inc :: getIncludedFilesLines rest res.2
    | none => getIncludedFilesLines rest res.2

/-- The filesystem the analyser sees: `files` maps a path to the lines `readLines`
yields for an existing file (`none` = missing file), and `dirList` is the
`globAsync('*', \x7bcwd, nodir: true\x7d)` listing used while enlisting. -/
structure AnalyzerFs where
  files : Str → Option (List Str)
  dirList : Str → List Str

/-- `getIncludedFiles` over the model; reading a missing file is an I/O failure. -/
def getIncludedFiles (fs : AnalyzerFs) (filePath : Str) : Option (List Str) :=
  match fs.files filePath with
  | none => none
  | some lines => some (getIncludedFilesLines lines false)

/-- The mutable state of a `cppAnalyzer` instance: `fileRequiredPaths` maps a file to
the include paths its dependencies need (`some none` embeds the JS `null` marking a
missing file, an absent key embeds `undefined`); `fileLocations` maps a basename to the
full paths where it was enlisted (`none` until initialised by `enlistFilePaths`);
`fileDependencies` maps a file to its dependent headers; `includePaths` keeps the
enlisted paths in enlistment order. -/
structure AnalyzerState where
  fileRequiredPaths : List (Str × Option (List Str))
  fileLocations : Option (List (Str × List Str))
  fileDependencies : List (Str × List Str)
  includePaths : List Str
deriving DecidableEq, Repr

/-- Lookup in a JS `Map` embedded as an association list. -/
def lookupM {β : Type} : List (Str × β) → Str → Option β
  | [], _ => none
  | (k, v) :: rest, n => if k = n then some v else lookupM rest n

/-- JS `Map.set`. -/
def insertM {β : Type} : List (Str × β) → Str → β → List (Str × β)
  | [], k, v => [(k, v)]
  | (k2, v2) :: rest, k, v =>
    if k2 = k then (k, v) :: rest else (k2, v2) :: insertM rest k v

/-- JS `Set.add` on an insertion-ordered set. -/
def setAdd (l : List Str) (x : Str) : List Str := if x ∈ l then l else l ++ [x]

/-- `cppAnalyzer.findInclFile`: `none` embeds the JS `undefined` (file local to the
including file, no include path needed), `some none` the JS `null` (file not found),
`some (some ip)` the include path at which the file was found. -/
def findInclFile (st : AnalyzerState) (root location searchedFile : Str) :
    Option (Option Str) :=
  let fileName := basename searchedFile
  match lookupM (st.fileLocations.getD []) fileName with
  | some paths =>
    if location ∈ paths then none
    else
      match st.includePaths.find? (fun includePath =>
        paths.contains
          (if isAbsolutePath includePath then pathJoin includePath searchedFile
           else pathJoin (pathJoin root includePath) searchedFile)) with
      | some includePath => some (some includePath)
      | none => some none
  | none => some none

/-- `requiredPaths.add(ip)` where `requiredPaths` is the live set shared with the
`fileRequiredPaths` entry of `filePath`: the local set always grows, and the map entry
is kept in sync as long as it still holds a set (a `null` overwrite detaches it, as in
JS, where the map then no longer references the local object). -/
def addRequired (st : AnalyzerState) (req : List Str) (filePath ip : Str) :
    List Str × AnalyzerState :=
  let req2 := setAdd req ip
  match lookupM st.fileRequiredPaths filePath with
  | some (some _) =>
    (req2, { st with fileRequiredPaths := insertM st.fileRequiredPaths filePath (some req2) })
  | _ => (req2, st)

/-- `fileDependencies.add(dep)` for `filePath`, creating the set on first use. -/
def addDependency (st : AnalyzerState) (filePath dep : Str) : AnalyzerState :=
  match lookupM st.fileDependencies filePath with
  | some deps =>
    { st with fileDependencies := insertM st.fileDependencies filePath (setAdd deps dep) }
  | none => { st with fileDependencies := insertM st.fileDependencies filePath [dep] }

/-- Errors of the analyser embedding: fuel exhaustion of the shallow embedding, or an
attempted read of a missing file. -/
inductive AErr
  | outOfFuel
  | ioError
deriving DecidableEq, Repr

mutual

/-- `cppAnalyzer._getPaths`: memoised resolution of the include paths a file needs.  A
cached set (truthy even when empty) or the `null` missing-marker is returned as is;
otherwise the file is marked in progress with a fresh empty set, scanned for
`#include` directives, and every included file is processed in order. -/
def analyzerGetPathsAux (fs : AnalyzerFs) (root : Str) :
    Nat → AnalyzerState → Str → Str → Except AErr (Option (List Str) × AnalyzerState)
  | 0, _, _, _ => .error .outOfFuel
  | fuel + 1, st, fileLocation, file =>
    let filePath := pathJoin fileLocation file
    match lookupM st.fileRequiredPaths filePath with
    | some rp => .ok (rp, st)
    | none =>
      let st2 := { st with fileRequiredPaths := insertM st.fileRequiredPaths filePath (some []) }
      match getIncludedFiles fs filePath with
      | none => .error .ioError
      | some includeFiles =>
        let st3 :=
          match lookupM st2.fileDependencies filePath with
          | some _ => st2
          | none => { st2 with fileDependencies := insertM st2.fileDependencies filePath [] }
        match analyzerProcessIncludes fs root fuel st3 [] filePath fileLocation includeFiles with
        | .error e => .error e
        | .ok (req, st4) => .ok (some req, st4)

/-- The `for (const includedFile of includeFiles)` loop of `_getPaths`, threading the
live `requiredPaths` set (`req`) of the file being processed.  The branch mirrors the
JS truthiness of the `findInclFile` result: a non-empty include path is recorded, the
JS `null` marks the included file missing and skips to the next one, and `undefined`
(or the falsy empty-string include path) treats the file as local. -/
def analyzerProcessIncludes (fs : AnalyzerFs) (root : Str) :
    Nat → AnalyzerState → List Str → Str → Str → List Str →
      Except AErr (List Str × AnalyzerState)
  | 0, _, _, _, _, _ => .error .outOfFuel
  | _ + 1, st, req, _, _, [] => .ok (req, st)
  | fuel + 1, st, req, filePath, fileLocation, includedFile :: restIncludes =>
    let locationFilePath0 := pathJoin fileLocation includedFile
    match findInclFile st root locationFilePath0 includedFile with
    | some (some includePath) =>
      if includePath = [] then
        let st2 := addDependency st filePath (pathJoin fileLocation includedFile)
        analyzerSubPaths fs root fuel st2 req filePath fileLocation locationFilePath0
          restIncludes
      else
        let rs := addRequired st req filePath includePath
        let locationFilePath :=
          if isAbsolutePath includePath then pathJoin includePath includedFile
          else pathJoin (pathJoin root includePath) includedFile
        let st3 := addDependency rs.2 filePath locationFilePath
        analyzerSubPaths fs root fuel st3 rs.1 filePath fileLocation locationFilePath
          restIncludes
    | some none =>
      let st2 :=
        { st with fileRequiredPaths := insertM st.fileRequiredPaths locationFilePath0 none }
      analyzerProcessIncludes fs root fuel st2 req filePath fileLocation restIncludes
    | none =>
      let st2 := addDependency st filePath (pathJoin fileLocation includedFile)
      analyzerSubPaths fs root fuel st2 req filePath fileLocation locationFilePath0
        restIncludes

/-- The tail of one loop iteration of `_getPaths`: fetch — or recursively establish,
when the entry is absent or `null` (both falsy) — the include paths the included file
itself needs, and fold them into the live set unless the result is the `null`
missing-marker. -/
def analyzerSubPaths (fs : AnalyzerFs) (root : Str) :
    Nat → AnalyzerState → List Str → Str → Str → Str → List Str →
      Except AErr (List Str × AnalyzerState)
  | 0, _, _, _, _, _, _ => .error .outOfFuel
  | fuel + 1, st, req, filePath, fileLocation, locationFilePath, restIncludes =>
    match (match lookupM st.fileRequiredPaths locationFilePath with
           | some (some l) => Except.ok ((some l : Option (List Str)), st)
           | _ =>
             analyzerGetPathsAux fs root fuel st (dirname locationFilePath)
               (basename locationFilePath)) with
    | .error e => .error e
    | .ok (sub, st2) =>
      match sub with
      | some l =>
        let rs := l.foldl
          (fun (acc : List Str × AnalyzerState) p => addRequired acc.2 acc.1 filePath p)
          (req, st2)
        analyzerProcessIncludes fs root fuel rs.2 rs.1 filePath fileLocation restIncludes
      | none =>
        analyzerProcessIncludes fs root fuel st2 req filePath fileLocation restIncludes

end

/-- `cppAnalyzer.getPaths` (the public, mutex-guarded entry; calls are embedded
sequentially): resolve the paths required by `file` and return the subset of the
enlisted `includePaths` in their original (enlistment) order.  When `_getPaths` yields
the `null` missing-marker, the guard `if (!includes) return [];` returns the **empty
array**: the `null` of the declared `string[] | null` result (`none` here) is never
produced. -/
def analyzerGetPaths (fs : AnalyzerFs) (root : Str) (fuel : Nat) (st : AnalyzerState)
    (fileLocation file : Str) : Except AErr (Option (List Str) × AnalyzerState) :=
  match analyzerGetPathsAux fs root fuel st (normalizePath fileLocation) file with
  | .error e => .error e
  | .ok (includes, st2) =>
    match includes with
    | none => .ok (some [], st2)
    | some l => .ok (some (st2.includePaths.filter fun p => l.contains p), st2)

/-- `cppAnalyzer.enlistFiles`: index every file of a directory listing under its
basename. -/
def enlistFiles (fs : AnalyzerFs) (st : AnalyzerState) (location : Str) : AnalyzerState :=
  (fs.dirList location).foldl
    (fun st filePath =>
      let fileName := basename filePath
      let fullPath := pathJoin location filePath
      let fl := st.fileLocations.getD []
      match lookupM fl fileName with
      | some paths =>
        { st with fileLocations := some (insertM fl fileName (setAdd paths fullPath)) }
      | none =>
        { st with fileLocations := some (insertM fl fileName [fullPath]) })
    st

/-- `cppAnalyzer.enlistFilePaths`: initialise `fileLocations` on first use, then enlist
every not-yet-enlisted path (an absolute path inside the root is stored relative to it,
the root itself as `.`), indexing the files found there and recording the path in
enlistment order.  `root` is the constructor argument, already normalised. -/
def enlistFilePaths (fs : AnalyzerFs) (root : Str) (st0 : AnalyzerState)
    (includePaths : List Str) : AnalyzerState :=
  let st := if st0.fileLocations.isSome then st0 else { st0 with fileLocations := some [] }
  includePaths.foldl
    (fun st includePath0 =>
      let includePathN := normalizePath includePath0
      let enlistPath := includePathN
      let includePath :=
        if isAbsolutePath includePathN && (root ++ ['/']).isPrefixOf includePathN then
          includePathN.drop (root.length + 1)
        else if includePathN = root then ['.']
        else includePathN
      if includePath ∈ st.includePaths then st
      else
        let enlistPath2 := if isAbsolutePath enlistPath then enlistPath
                           else pathJoin root enlistPath
        let st2 := enlistFiles fs st enlistPath2
        { st2 with includePaths := st2.includePaths ++ [includePath] })
    st

/-! ### C7: the analyser on a missing seed file -/

/-- The analyser's normalised root folder for the scenario: the workspace `/ws`. -/
def scnRoot : Str := normalizePath "/ws".data

/-- The scenario filesystem: the workspace root `/ws` holds one source file `a.cpp`
containing `#include "zzz.h"`; no other file exists anywhere. -/
def scnFs : AnalyzerFs :=
  { files := fun p => if p = "/ws/a.cpp".data then some ["#include \"zzz.h\"".data] else none,
    dirList := fun _ => [] }

/-- The analyser over root `/ws` right after construction and an (empty) enlistment,
which initialises `fileLocations`. -/
def scnSt0 : AnalyzerState :=
  enlistFilePaths scnFs scnRoot
    { fileRequiredPaths := [], fileLocations := none, fileDependencies := [],
      includePaths := [] } []

/-- The analyser state after `getPaths('/ws', 'a.cpp')`: `a.cpp` was scanned, `zzz.h`
was found nowhere, and `/ws/zzz.h` is marked missing (the JS `null`). -/
def scnSt1 : AnalyzerState :=
  match analyzerGetPaths scnFs scnRoot 5 scnSt0 "/ws".data "a.cpp".data with
  | .ok (_, st) => st
  | .error _ => scnSt0

/-- C7: `getPaths` never returns the `null` its signature declares for a missing seed
file.  First conjunct: for all inputs, a successful `getPaths` result is non-`null`
(the guard `if (!includes) return [];` maps the missing-marker to the empty array).
The remaining conjuncts run the concrete scenario: `getPaths('/ws', 'a.cpp')` scans
`a.cpp`, marks its missing include `/ws/zzz.h` as `null` in `fileRequiredPaths`, and
the follow-up seed call `getPaths('/ws', 'zzz.h')` — whose seed file is missing and
so marked — returns the empty array `some []`, not the `null` (`none`) the claim and
the function's own documentation promise. -/
theorem getPaths_missing_file_not_null :
    (∀ fs root fuel st loc file r st2,
        analyzerGetPaths fs root fuel st loc file = .ok (r, st2) → r ≠ none)
    ∧ analyzerGetPaths scnFs scnRoot 5 scnSt0 "/ws".data "a.cpp".data
        = .ok (some [], scnSt1)
    ∧ lookupM scnSt1.fileRequiredPaths (pathJoin "/ws".data "zzz.h".data) = some none
    ∧ analyzerGetPaths scnFs scnRoot 5 scnSt1 "/ws".data "zzz.h".data
        = .ok (some [], scnSt1) := by
  refine ⟨?_, rfl, rfl, rfl⟩
  intro fs root fuel st loc file r st2 h hnone
  subst hnone
  unfold analyzerGetPaths at h
  cases haux : analyzerGetPathsAux fs root fuel st (normalizePath loc) file with
  | error e => rw [haux] at h; exact Except.noConfusion h
  | ok p =>
    rw [haux] at h
    obtain ⟨includes, st3⟩ := p
    cases includes <;> simp at h

/-- C7 witness: the general non-`null` conclusion discharged at the scenario input,
with the hypothesis evaluated by `rfl`. -/
theorem getPaths_missing_file_not_null_witness :
    (some ([] : List Str) : Option (List Str)) ≠ none :=
  getPaths_missing_file_not_null.1 scnFs scnRoot 5 scnSt1 "/ws".data "zzz.h".data
    (some []) scnSt1 rfl

end Cppbuild
